import Mathlib

/-!
Verification of the repos-cli alias engine, output-truncation policy and
process-executor result construction, as a shallow embedding of the Python
sources in `src/repos_cli/` (utils.py, store.py, executor.py, kernel.py).

Conventions of the embedding:
* Python strings are Lean `String`s; where the code manipulates UTF-8 byte
  buffers (`str.encode("utf-8")`, byte slicing), the embedding works on the
  byte sequence directly, represented as `List Nat` (one entry per byte).
* Python `dict[str, str]` is an association list with Python's insertion
  semantics (`dictInsert`): updating an existing key replaces its value in
  place, a new key is appended; iteration order is the list order.
* Fallible Python code (`raise ValueError`) is modelled with `Except`.
* Recursions that Python runs as index-based `while` loops are written with
  an explicit fuel argument so that every definition is structurally
  recursive and computable; the wrappers always supply enough fuel
  (one unit per consumed character / per expansion level), so the
  fuel-exhausted sentinel branches are unreachable from the wrappers.
-/

/-- Characters stripped by Python `str.strip()` (the ASCII whitespace set,
which is all that the alias scripts under consideration contain). -/
def pyStripWS (c : Char) : Bool :=
  c = ' ' || c = '\t' || c = '\n' || c = '\r' || c = '\x0b' || c = '\x0c'

/-- Python `str.strip()` on a character list. -/
def pyStrip (l : List Char) : List Char :=
  ((l.dropWhile pyStripWS).reverse.dropWhile pyStripWS).reverse

/-- Python str.replace semantics: replace non-overlapping occurrences of
`pat` left to right (only used with non-empty `pat`).  The fuel is one unit
per input character, which is enough because every step consumes at least
one input character. -/
def replaceFuel (pat rep : List Char) : Nat → List Char → List Char
| _, [] => []
| 0, l => l
| Nat.succ fuel, c :: rest =>
  if pat ≠ [] ∧ pat.isPrefixOf (c :: rest) then
    rep ++ replaceFuel pat rep fuel ((c :: rest).drop pat.length)
  else
    c :: replaceFuel pat rep fuel rest

/-- Python `s.replace(pat, rep)` for non-empty `pat`, on `String`s. -/
def pyReplace (s pat rep : String) : String :=
  String.mk (replaceFuel pat.toList rep.toList (s.toList.length + 1) s.toList)

/-- The character class of CPython `shlex._find_unsafe` (with `re.ASCII`):
a character is safe iff it is an ASCII word character or one of
`@ % + = : , . /` or the hyphen. -/
def shlexSafeChar (c : Char) : Bool :=
  (('a' ≤ c && c ≤ 'z') || ('A' ≤ c && c ≤ 'Z') || ('0' ≤ c && c ≤ '9')) ||
  (c = '_' || c = '@' || c = '%' || c = '+' || c = '=' || c = ':' ||
   c = ',' || c = '.' || c = '/' || c = '-')

/-- CPython `shlex.quote`, which `utils.shell_quote` returns verbatim:
the empty string becomes `''`; a string of safe characters is returned
unchanged (NOT single-quoted); otherwise the string is wrapped in single
quotes with each embedded single quote rendered as `'"'"'`. -/
def shlexQuote (s : String) : String :=
  if s = "" then "''"
  else if s.toList.all shlexSafeChar then s
  else "'" ++ pyReplace s "'" "'\"'\"'" ++ "'"

/-- Shell-escaping as the specification's words describe it (`Modelled from
the spec`): "single-quoting with embedded single quotes escaped",
unconditionally, using the same rendering of an embedded quote as the
code.  Used only to compare the specification's claim with the code. -/
def claimShellEscape (s : String) : String :=
  "'" ++ pyReplace s "'" "'\"'\"'" ++ "'"

/-! ## CPython `shlex.split` (posix mode, `whitespace_split=True`,
`comments=False`, no punctuation chars), as called by
`utils.parse_alias_script` on the argument region of an alias call.
The five reachable states of `shlex.read_token` under this configuration
are: whitespace (`' '`), word (`'a'`), single quote, double quote, and
escape; the escape state records whether it was entered from inside a
double quote (`escapedstate == '"'`) or not (`escapedstate == 'a'`). -/

inductive SxState where
| space : SxState
| word : SxState
| squote : SxState
| dquote : SxState
| esc : Bool → SxState
deriving DecidableEq

/-- `shlex.whitespace`. -/
def sxWhitespace (c : Char) : Bool :=
  c = ' ' || c = '\t' || c = '\r' || c = '\n'

/-- The `shlex.read_token` loop, run repeatedly until end of input as
`shlex.split`'s iterator does.  `tok` is the token under construction,
`quoted` the per-token flag that makes an empty quoted token emittable,
`acc` the emitted tokens.  Errors mirror the two `ValueError`s of
`read_token`. -/
def shlexSplitCore : List Char → SxState → List Char → Bool →
    List (List Char) → Except String (List (List Char))
| [], st, tok, quoted, acc =>
  match st with
  | .squote => .error "No closing quotation"
  | .dquote => .error "No closing quotation"
  | .esc _ => .error "No escaped character"
  | _ => .ok (if tok ≠ [] || quoted then acc ++ [tok] else acc)
| c :: rest, .space, tok, quoted, acc =>
  if sxWhitespace c then
    if tok ≠ [] || quoted then shlexSplitCore rest .space [] false (acc ++ [tok])
    else shlexSplitCore rest .space tok quoted acc
  else if c = '\\' then shlexSplitCore rest (.esc false) tok quoted acc
  else if c = '\'' then shlexSplitCore rest .squote tok quoted acc
  else if c = '"' then shlexSplitCore rest .dquote tok quoted acc
  else shlexSplitCore rest .word (tok ++ [c]) quoted acc
| c :: rest, .word, tok, quoted, acc =>
  if sxWhitespace c then
    if tok ≠ [] || quoted then shlexSplitCore rest .space [] false (acc ++ [tok])
    else shlexSplitCore rest .space tok quoted acc
  else if c = '\'' then shlexSplitCore rest .squote tok quoted acc
  else if c = '"' then shlexSplitCore rest .dquote tok quoted acc
  else if c = '\\' then shlexSplitCore rest (.esc false) tok quoted acc
  else shlexSplitCore rest .word (tok ++ [c]) quoted acc
| c :: rest, .squote, tok, _, acc =>
  if c = '\'' then shlexSplitCore rest .word tok true acc
  else shlexSplitCore rest .squote (tok ++ [c]) true acc
| c :: rest, .dquote, tok, _, acc =>
  if c = '"' then shlexSplitCore rest .word tok true acc
  else if c = '\\' then shlexSplitCore rest (.esc true) tok true acc
  else shlexSplitCore rest .dquote (tok ++ [c]) true acc
| c :: rest, .esc inDq, tok, quoted, acc =>
  if inDq then
    if c = '\\' || c = '"' then shlexSplitCore rest .dquote (tok ++ [c]) quoted acc
    else shlexSplitCore rest .dquote (tok ++ ['\\', c]) quoted acc
  else shlexSplitCore rest .word (tok ++ [c]) quoted acc

/-- `shlex.split(s)` as used by the segmenter (posix, whitespace split,
comments off). -/
def shlexSplit (s : String) : Except String (List String) :=
  (shlexSplitCore s.toList .space [] false []).map
    (fun ts => ts.map (fun t => String.mk t))

/-! ## `utils.parse_alias_script` — the quote-aware segmenter. -/

/-- `utils.ScriptSegment`: `type` is the literal string `"literal"` or
`"alias"` exactly as in the Python dataclass; `content` is the shell text
(literal) or the alias name (alias); `args` the parsed arguments. -/
structure ScriptSegment where
  type : String
  content : String
  args : List String
deriving DecidableEq

/-- `utils.LexerState`. -/
inductive LexState where
| normal : LexState
| squote : LexState
| dquote : LexState
| escape : LexState
deriving DecidableEq

/-- Python `ch.isalnum() or ch == '_'` restricted to ASCII (the alias-name
identifier characters). -/
def isIdentChar (c : Char) : Bool :=
  (('a' ≤ c && c ≤ 'z') || ('A' ≤ c && c ≤ 'Z') || ('0' ≤ c && c ≤ '9')) ||
  c = '_'

/-- Flush the current literal buffer: mirrors the repeated Python pattern
`if current_segment: t = ''.join(current_segment).strip(); if t: append`. -/
def flushLiteral (segs : List ScriptSegment) (cur : List Char) :
    List ScriptSegment :=
  if cur ≠ [] then
    let t := pyStrip cur
    if t ≠ [] then segs ++ [⟨"literal", String.mk t, []⟩] else segs
  else segs

/-- The argument-collection loop of the `@` branch of
`parse_alias_script` (lines 226-242): consume characters until a
separator (`;`, newline) or an `@` at a token boundary, tracking the
token-boundary flag across whitespace.  Returns the consumed characters
and the remaining input; the stopping character is not consumed. -/
def collectArgs : List Char → Bool → List Char × List Char
| [], _ => ([], [])
| c :: rest, atTok =>
  if c = ';' || c = '\n' then ([], c :: rest)
  else if c = ' ' || c = '\t' then
    let pr := collectArgs rest true
    (c :: pr.1, pr.2)
  else if c = '@' && atTok then ([], c :: rest)
  else
    let pr := collectArgs rest false
    (c :: pr.1, pr.2)

/-- The main scan loop of `utils.parse_alias_script`.  One unit of fuel is
spent per iteration and every iteration consumes at least one character,
so fuel `length + 1` (supplied by `parseAliasScript`) never runs out; the
fuel-exhausted branch flushes like end-of-input and is unreachable from
the wrapper. -/
def parseLoop : Nat → List Char → LexState → List Char → Bool →
    List ScriptSegment → List ScriptSegment
| _, [], _, cur, _, segs => flushLiteral segs cur
| 0, _ :: _, _, cur, _, segs => flushLiteral segs cur
| Nat.succ fuel, c :: rest, st, cur, boundary, segs =>
  match st with
  | .escape => parseLoop fuel rest .normal (cur ++ [c]) false segs
  | .normal =>
    if c = '\\' then parseLoop fuel rest .escape (cur ++ [c]) boundary segs
    else if c = '\'' then parseLoop fuel rest .squote (cur ++ [c]) false segs
    else if c = '"' then parseLoop fuel rest .dquote (cur ++ [c]) false segs
    else if c = ';' || c = '\n' then
      parseLoop fuel rest .normal [] true (flushLiteral segs cur)
    else if c = ' ' || c = '\t' then
      let cur2 := if !boundary || cur ≠ [] then cur ++ [c] else cur
      parseLoop fuel rest .normal cur2 boundary segs
    else if c = '@' && boundary then
      let segs1 := flushLiteral segs cur
      let name := rest.takeWhile isIdentChar
      if name = [] then parseLoop fuel rest .normal ['@'] false segs1
      else
        let afterName := rest.drop name.length
        let ws := afterName.takeWhile (fun w => w = ' ' || w = '\t')
        let afterWs := afterName.drop ws.length
        let pr := collectArgs afterWs true
        let argsStr := pyStrip pr.1
        let rest3 := pr.2
        if argsStr = [] then
          let segs2 := segs1 ++ [⟨"alias", String.mk name, []⟩]
          let boundary3 :=
            match rest3 with
            | [] => false
            | c2 :: _ => c2 = ';' || c2 = '\n' || c2 = '@'
          parseLoop fuel rest3 .normal [] boundary3 segs2
        else
          match shlexSplit (String.mk argsStr) with
          | .ok parsed =>
            let segs2 := segs1 ++ [⟨"alias", String.mk name, parsed⟩]
            let boundary3 :=
              match rest3 with
              | [] => false
              | c2 :: _ => c2 = ';' || c2 = '\n' || c2 = '@'
            parseLoop fuel rest3 .normal [] boundary3 segs2
          | .error _ =>
            let slice := '@' :: (name ++ ws ++ pr.1)
            let boundary2 :=
              match slice.getLast? with
              | some l => l = ';' || l = '\n'
              | none => false
            parseLoop fuel rest3 .normal slice boundary2 segs1
    else parseLoop fuel rest .normal (cur ++ [c]) false segs
  | .squote =>
    parseLoop fuel rest (if c = '\'' then .normal else .squote) (cur ++ [c])
      boundary segs
  | .dquote =>
    if c = '\\' then
      match rest with
      | d :: rest2 => parseLoop fuel rest2 .dquote (cur ++ ['\\', d]) boundary segs
      | [] => parseLoop fuel [] .dquote (cur ++ ['\\']) boundary segs
    else if c = '"' then parseLoop fuel rest .normal (cur ++ [c]) boundary segs
    else parseLoop fuel rest .dquote (cur ++ [c]) boundary segs

/-- `utils.parse_alias_script`: split an alias body into literal and
alias-call segments.  The scan starts in `NORMAL` state at a command
boundary with an empty buffer. -/
def parseAliasScript (script : String) : List ScriptSegment :=
  if script = "" then []
  else parseLoop (script.toList.length + 1) script.toList .normal [] true []

/-! ## `utils.extract_kwargs_and_posargs` — the argument binder. -/

/-- First character of the key class `[A-Za-z_]`. -/
def isIdentStart (c : Char) : Bool :=
  ('a' ≤ c && c ≤ 'z') || ('A' ≤ c && c ≤ 'Z') || c = '_'

/-- Python `re.match` of the binder's pattern (key, then `=`, then `.*$`)
against one token.  The key is the maximal identifier run from the start
(identifier characters cannot contain `=`, so the regex is deterministic);
`.*` does not cross a newline and `$` also matches just before one
trailing newline, so a value may not contain a newline except a single
trailing one, which is not part of the captured value. -/
def kwargMatch (t : String) : Option (String × String) :=
  match t.toList with
  | [] => none
  | c :: rest =>
    if isIdentStart c then
      let key := c :: rest.takeWhile isIdentChar
      match rest.dropWhile isIdentChar with
      | '=' :: v =>
        if v.all (fun x => x ≠ '\n') then some (String.mk key, String.mk v)
        else if (v.dropLast.all (fun x => x ≠ '\n')) && (v.getLast? = some '\n') then
          some (String.mk key, String.mk v.dropLast)
        else none
      | _ => none
    else none

/-- Python `dict` assignment `m[k] = v`: replace the value in place if the
key is present (keeping its position), otherwise append. -/
def dictInsert (m : List (String × String)) (k v : String) :
    List (String × String) :=
  if m.any (fun kv => kv.1 = k) then
    m.map (fun kv => if kv.1 = k then (k, v) else kv)
  else m ++ [(k, v)]

/-- Python `k in m` / `m[k]` on the association-list model of `dict`. -/
def dictLookup (m : List (String × String)) (k : String) : Option String :=
  (m.find? (fun kv => kv.1 = k)).map (fun kv => kv.2)

/-- The loop of `utils.extract_kwargs_and_posargs`: walk the tokens once;
a token matching the named form updates the kwargs dict, every other
token is appended to the positional list. -/
def extractAux : List String → List (String × String) → List String →
    List (String × String) × List String
| [], kwargs, posargs => (kwargs, posargs)
| arg :: rest, kwargs, posargs =>
  match kwargMatch arg with
  | some kv => extractAux rest (dictInsert kwargs kv.1 kv.2) posargs
  | none => extractAux rest kwargs (posargs ++ [arg])

/-- `utils.extract_kwargs_and_posargs`. -/
def extractKwargsAndPosargs (args : List String) :
    List (String × String) × List String :=
  extractAux args [] []

/-! ## `utils.substitute_placeholders`. -/

/-- `re.findall` of the placeholder pattern (brace, identifier, brace):
non-overlapping matches left to right.  Fuel is one unit per character. -/
def placeholderScan : Nat → List Char → List String
| _, [] => []
| 0, _ => []
| Nat.succ fuel, c :: rest =>
  if c = '\x7b' then
    match rest with
    | d :: rs =>
      if isIdentStart d then
        let tailName := rs.takeWhile isIdentChar
        match rs.drop tailName.length with
        | '\x7d' :: rs2 =>
          String.mk (d :: tailName) :: placeholderScan fuel rs2
        | _ => placeholderScan fuel rest
      else placeholderScan fuel rest
    | [] => []
  else placeholderScan fuel rest

/-- All `\x7bidentifier\x7d` placeholder names occurring in a script, in
order of occurrence, with duplicates (as `findall` returns them). -/
def placeholdersOf (script : String) : List String :=
  placeholderScan (script.toList.length + 1) script.toList

/-- Deduplicate keeping first occurrences.  Python iterates
`set(placeholders)` whose order is unspecified; the embedding fixes the
first-occurrence order, and theorems about the substitution loop are
stated only where the iteration order cannot influence the result. -/
def dedupFirstAux : List String → List String → List String
| _, [] => []
| seen, x :: xs =>
  if seen.contains x then dedupFirstAux seen xs
  else x :: dedupFirstAux (x :: seen) xs

/-- See `dedupFirstAux`. -/
def dedupFirst (l : List String) : List String := dedupFirstAux [] l

/-- `utils.substitute_placeholders`: collect all placeholders; if any has
no key in `kwargs`, raise (error lists every missing name and the provided
keys); otherwise replace each distinct placeholder pattern by the
`shlex.quote` of its value, one `str.replace` per distinct name. -/
def substitutePlaceholders (script : String)
    (kwargs : List (String × String)) : Except String String :=
  let placeholders := placeholdersOf script
  if placeholders = [] then .ok script
  else
    let missing := placeholders.filter (fun p => (dictLookup kwargs p).isNone)
    if missing ≠ [] then
      let providedKeys := kwargs.map (fun kv => kv.1)
      let prov :=
        if providedKeys ≠ [] then String.intercalate ", " providedKeys
        else "none"
      .error ("Missing required placeholders: " ++
        String.intercalate ", " missing ++ ". Provided: " ++ prov)
    else
      .ok ((dedupFirst placeholders).foldl
        (fun result p =>
          pyReplace result ("\x7b" ++ p ++ "\x7d")
            (shlexQuote ((dictLookup kwargs p).getD "")))
        script)

/-- The result the specification's sentence predicts for a substitution
(`Modelled from the spec`): every placeholder occurrence replaced by the
always-single-quoted form of its value. -/
def claimSubstitute (script : String) (kwargs : List (String × String)) :
    String :=
  (dedupFirst (placeholdersOf script)).foldl
    (fun result p =>
      pyReplace result ("\x7b" ++ p ++ "\x7d")
        (claimShellEscape ((dictLookup kwargs p).getD "")))
    script

/-! ## `store.record_event` — persistence-time truncation policy.
Byte buffers (`str.encode("utf-8")`) are represented as `List Nat`. -/

/-- `store.MAX_STDOUT_BYTES`. -/
def MAX_STDOUT_BYTES : Nat := 8192

/-- `store.MAX_STDERR_BYTES`. -/
def MAX_STDERR_BYTES : Nat := 8192

/-- `store.MAX_TOTAL_BYTES`. -/
def MAX_TOTAL_BYTES : Nat := 16384

/-- What `record_event` computes before inserting the row and what it
returns: the kept byte sequences of each stream (the stored strings are
their lenient UTF-8 decodes), the two truncation flags, and the full
logical byte totals measured before truncation. -/
structure RecordedEvent where
  stdoutKept : List Nat
  stderrKept : List Nat
  stdoutTruncated : Bool
  stderrTruncated : Bool
  stdoutBytesTotal : Nat
  stderrBytesTotal : Nat
deriving DecidableEq

/-- The truncation logic of `store.record_event` (store.py lines 140-168),
applied to the UTF-8 encodings of stdout and stderr.  The subtraction
`MAX_TOTAL_BYTES - stderr_bytes_total` is Python `int` arithmetic and may
be negative, hence the `Int` and the `max 0` mirroring `max(0, ...)`. -/
def recordEventTruncate (stdout stderr : List Nat) : RecordedEvent :=
  let stdoutTotal := stdout.length
  let stderrTotal := stderr.length
  if MAX_TOTAL_BYTES < stdoutTotal + stderrTotal then
    let remaining : Int := (MAX_TOTAL_BYTES : Int) - (stderrTotal : Int)
    if remaining < (stdoutTotal : Int) then
      ⟨stdout.take (max 0 remaining).toNat, stderr, true, false,
        stdoutTotal, stderrTotal⟩
    else ⟨stdout, stderr, false, false, stdoutTotal, stderrTotal⟩
  else
    let outPr :=
      if MAX_STDOUT_BYTES < stdoutTotal then
        (stdout.take MAX_STDOUT_BYTES, true)
      else (stdout, false)
    let errPr :=
      if MAX_STDERR_BYTES < stderrTotal then
        (stderr.take MAX_STDERR_BYTES, true)
      else (stderr, false)
    ⟨outPr.1, errPr.1, outPr.2, errPr.2, stdoutTotal, stderrTotal⟩

/-! ## `executor.SubprocessExecutor` — capture caps and the PTY result. -/

/-- `SubprocessExecutor.__init__` default for `max_capture_bytes`. -/
def defaultMaxCaptureBytes : Nat := 256000

/-- `SubprocessExecutor.__init__` default for `timeout` (seconds). -/
def defaultTimeout : Nat := 30

/-- A capped capture buffer: the accepted chunks, the running logical byte
count (which keeps growing past the cap), and the shared truncated flag. -/
structure CapState where
  buf : List (List Nat)
  bytes : Nat
  truncated : Bool
deriving DecidableEq

/-- `_append_capped` as defined identically inside `run_stream`,
`run_argv_stream` and `run_pty`: measure the chunk after UTF-8 encoding;
past the cap nothing is stored but the logical count still grows; a chunk
that would cross the cap is sliced to the remaining budget; the returned
count is always the logical total including discarded bytes. -/
def appendCapped (maxBytes : Nat) (st : CapState) (chunk : List Nat) :
    CapState :=
  let b := chunk.length
  if maxBytes = 0 then ⟨st.buf, st.bytes + b, true⟩
  else if maxBytes ≤ st.bytes then ⟨st.buf, st.bytes + b, true⟩
  else
    let remaining := maxBytes - st.bytes
    if remaining < b then ⟨st.buf ++ [chunk.take remaining], st.bytes + b, true⟩
    else ⟨st.buf ++ [chunk], st.bytes + b, st.truncated⟩

/-- The events of one `run_pty` call that determine the returned
`StreamResult`: whether `subprocess.Popen` raised (with the exception
text), the chunks read from the PTY master in arrival order (as UTF-8
bytes), whether the deadline expired, and the final `proc.returncode`. -/
structure PtyOutcome where
  spawnError : Option String
  chunks : List (List Nat)
  timedOut : Bool
  returncode : Option Int

/-- The fields of the `StreamResult` returned by `run_pty` that the
shallow embedding tracks (stdout is kept as the accepted byte chunks; the
string field of the Python result is their lenient UTF-8 decode). -/
structure PtyResult where
  exitCode : Int
  stdoutChunks : List (List Nat)
  stdoutBytes : Nat
  stderr : String
  truncated : Bool
deriving DecidableEq

/-- The timeout message `run_pty` appends to the PTY output stream. -/
def ptyTimeoutMsg (timeoutVal : Nat) : String :=
  "\nCommand timed out after " ++ toString timeoutVal ++ " seconds\n"

/-- ASCII strings as byte sequences (every string fed to the capture
buffers by the embedding is ASCII, where UTF-8 is the identity). -/
def asciiBytes (s : String) : List Nat := s.toList.map (fun c => c.toNat)

/-- `SubprocessExecutor.run_pty` result construction (executor.py lines
630-742): a spawn failure returns exit 1 with the exception text in
stderr; otherwise the captured chunks (plus the timeout message if the
deadline expired) form the single PTY output stream returned as stdout,
stderr is the empty string, a timeout forces exit code 1, and a raw exit
code of 127 is normalized to 1. -/
def runPtyModel (maxBytes timeoutVal : Nat) (o : PtyOutcome) : PtyResult :=
  match o.spawnError with
  | some e => ⟨1, [], 0, "Error executing command: " ++ e, false⟩
  | none =>
    let st := o.chunks.foldl (appendCapped maxBytes) ⟨[], 0, false⟩
    let st2 :=
      if o.timedOut then
        appendCapped maxBytes st (asciiBytes (ptyTimeoutMsg timeoutVal))
      else st
    let ec0 : Int := if o.timedOut then 1 else o.returncode.getD 1
    let ec : Int := if ec0 = 127 then 1 else ec0
    ⟨ec, st2.buf, st2.bytes, "", st2.truncated⟩

/-! ## `kernel.Kernel` alias expansion (`_execute_alias_with_args` /
`_execute_alias_script`), kernel.py lines 638-752.  The store lookup
(`find_alias`) and the execution-and-formatting of one literal segment
(`_execute_script_segment`, which runs the executor, records the event and
formats the RUN/EXIT lines) are the engine's collaborators and are
abstracted as functions of the environment; the engine's own control flow
— depth check, cycle check, push, try/finally pop, binding, substitution,
segmentation, sequential segment walk, inline not-found errors and output
joining — is embedded directly. -/

/-- `Kernel._max_alias_depth` default. -/
def maxAliasDepth : Nat := 10

/-- Python `' -> '.join(stack)`. -/
def joinArrow (l : List String) : String := String.intercalate " -> " l

/-- The `MaxDepthExceeded` message of `_execute_alias_with_args`. -/
def depthError (stack : List String) : String :=
  "Error: Max alias expansion depth (" ++ toString maxAliasDepth ++
  ") exceeded. Stack: " ++ joinArrow stack

/-- The `CycleDetected` message of `_execute_alias_with_args`. -/
def cycleError (stack : List String) (name : String) : String :=
  "Error: Alias expansion cycle detected: " ++ joinArrow (stack ++ [name])

/-- The inline error contributed by an `AliasCall` segment whose target
has no stored body (`_execute_alias_script`). -/
def aliasNotFoundError (name : String) : String :=
  "Error: Alias '@" ++ name ++ "' not found"

/-- The expansion engine's collaborators: `findAlias` is
`store.find_alias` for the current panel, `runLit` is
`_execute_script_segment` (executes one literal segment with the
positional arguments and returns its formatted output). -/
structure ExpEnv where
  findAlias : String → Option String
  runLit : String → List String → String

/-- Result of one expansion call: the returned output, the expansion call
stack after the call (the mutable `_alias_expansion_stack`), and the
trace of literal segment contents handed to the executor (in order). -/
structure ExpResult where
  output : String
  stack : List String
  executed : List String
deriving DecidableEq

/-- The segment walk of `_execute_alias_script` (lines 718-751): literal
segments are executed via `runLit` (their content is appended to the
execution trace), alias segments are looked up and recursively expanded
through `recur`, a failed lookup contributes an inline error and the walk
continues.  Returns the collected outputs, the stack and the trace. -/
def execSegsWith (env : ExpEnv)
    (recur : List String → List String → String → String → List String →
      ExpResult)
    (posargs : List String) :
    List ScriptSegment → List String → List String → List String →
    List String × List String × List String
| [], stack, executed, outs => (outs, stack, executed)
| seg :: restSegs, stack, executed, outs =>
  if seg.type = "literal" then
    let out := env.runLit seg.content posargs
    execSegsWith env recur posargs restSegs stack (executed ++ [seg.content])
      (outs ++ [out])
  else if seg.type = "alias" then
    match env.findAlias seg.content with
    | none =>
      execSegsWith env recur posargs restSegs stack executed
        (outs ++ [aliasNotFoundError seg.content])
    | some script =>
      let r := recur stack executed seg.content script seg.args
      execSegsWith env recur posargs restSegs r.stack r.executed
        (outs ++ [r.output])
  else execSegsWith env recur posargs restSegs stack executed outs

/-- `Kernel._execute_alias_script`: bind the invocation arguments,
substitute placeholders (a `ValueError` becomes `"Error: ..."` and nothing
executes), segment the rendered body, walk the segments sequentially, and
join the non-empty outputs with newlines. -/
def execScriptWith (env : ExpEnv)
    (recur : List String → List String → String → String → List String →
      ExpResult)
    (stack executed : List String) (body : String)
    (invocationArgs : List String) : ExpResult :=
  let kp := extractKwargsAndPosargs invocationArgs
  match substitutePlaceholders body kp.1 with
  | .error e => ⟨"Error: " ++ e, stack, executed⟩
  | .ok rendered =>
    let segments := parseAliasScript rendered
    if segments = [] then ⟨"", stack, executed⟩
    else
      let r := execSegsWith env recur kp.2 segments stack executed []
      ⟨String.intercalate "\n" (r.1.filter (fun o => o ≠ "")), r.2.1, r.2.2⟩

/-- `Kernel._execute_alias_with_args`: depth check against the current
stack, then cycle check, then push the name, run the script, and pop on
every exit path (the `finally`, mirrored by `dropLast` applied to the
stack returned by the body).  One unit of fuel per expansion level; the
depth check bounds the nesting by `maxAliasDepth + 1` levels, so the fuel
supplied by `invokeAlias` never runs out and the sentinel branch is
unreachable from it. -/
def execAliasWithArgs (env : ExpEnv) :
    Nat → List String → List String → String → String → List String →
    ExpResult
| 0, stack, executed, _, _, _ => ⟨"Error: fuel exhausted", stack, executed⟩
| Nat.succ fuel, stack, executed, name, body, args =>
  if maxAliasDepth ≤ stack.length then ⟨depthError stack, stack, executed⟩
  else if stack.contains name then ⟨cycleError stack name, stack, executed⟩
  else
    let r := execScriptWith env
      (fun st ex n b a => execAliasWithArgs env fuel st ex n b a)
      (stack ++ [name]) executed body args
    ⟨r.output, r.stack.dropLast, r.executed⟩

/-- The alias path of `Kernel.handle_command`: look up the invoked name in
the store and expand it with the session's (empty) expansion stack. -/
def invokeAlias (env : ExpEnv) (name : String) (args : List String) :
    Option ExpResult :=
  (env.findAlias name).map
    (fun body => execAliasWithArgs env (maxAliasDepth + 2) [] [] name body args)

/-- The value of the last named-form token with key `k` in the token list
(the specification-side characterization against which the binder's dict
is compared): `none` if no token binds `k`. -/
def lastBinding (k : String) : List String → Option String
| [] => none
| t :: rest =>
  match lastBinding k rest with
  | some v => some v
  | none =>
    match kwargMatch t with
    | some kv => if kv.1 = k then some kv.2 else none
    | none => none

/-- A concrete literal-segment executor used where a claim's statement
needs a closed environment: tags the executed script. -/
def tagRun : String → List String → String := fun s _ => "OUT:" ++ s

/-- An expansion environment over an association-list alias store. -/
def mkEnv (m : List (String × String))
    (runLit : String → List String → String) : ExpEnv :=
  ⟨fun n => dictLookup m n, runLit⟩

/-- The store holding the alias `self` with body `@self`. -/
def selfStore : List (String × String) := [("self", "@self")]

/-- A chain of 11 aliases, each body calling the next, the last a literal
(never reached under the default depth limit). -/
def chain11Store : List (String × String) :=
  [("a1", "@a2"), ("a2", "@a3"), ("a3", "@a4"), ("a4", "@a5"),
   ("a5", "@a6"), ("a6", "@a7"), ("a7", "@a8"), ("a8", "@a9"),
   ("a9", "@a10"), ("a10", "@a11"), ("a11", "echo done")]

/-- A chain of exactly 10 aliases, the last one a literal command. -/
def chain10Store : List (String × String) :=
  [("a1", "@a2"), ("a2", "@a3"), ("a3", "@a4"), ("a4", "@a5"),
   ("a5", "@a6"), ("a6", "@a7"), ("a7", "@a8"), ("a8", "@a9"),
   ("a9", "@a10"), ("a10", "echo done")]

/-- A cycle of length 10: each alias calls the next and the tenth calls
the first again. -/
def cyc10Store : List (String × String) :=
  [("a1", "@a2"), ("a2", "@a3"), ("a3", "@a4"), ("a4", "@a5"),
   ("a5", "@a6"), ("a6", "@a7"), ("a7", "@a8"), ("a8", "@a9"),
   ("a9", "@a10"), ("a10", "@a1")]

/-- The expansion stack after entering `a1` through `a10`. -/
def stackTen : List String :=
  ["a1", "a2", "a3", "a4", "a5", "a6", "a7", "a8", "a9", "a10"]

/-! # Theorems

Helper lemmas first, then one theorem per claim (with a witness where the
theorem carries hypotheses). -/

/-- Claim C6: `segment("@a; @b; @c")` and `segment("@a @b @c")` both
return exactly three `AliasCall` segments naming `a`, `b`, `c` in that
order, each with an empty argument list, and zero `Literal` segments:
the `@a @b` shorthand is equivalent to explicit `;`-chaining, and
delimiters never become segments. -/
theorem claim6_chaining_equivalence :
    parseAliasScript "@a; @b; @c" =
      [⟨"alias", "a", []⟩, ⟨"alias", "b", []⟩, ⟨"alias", "c", []⟩] ∧
    parseAliasScript "@a @b @c" =
      [⟨"alias", "a", []⟩, ⟨"alias", "b", []⟩, ⟨"alias", "c", []⟩] ∧
    parseAliasScript "@a; @b; @c" = parseAliasScript "@a @b @c" := by
  refine ⟨by decide, by decide, by decide⟩

/-- Claim C7: `segment('echo "test @s; @b"')` returns exactly one
`Literal` segment holding the whole command; `@s` and `@b` never appear
as `AliasCall` segments because `@` and `;` have no special meaning
inside a double-quoted region. -/
theorem claim7_quote_masking :
    parseAliasScript "echo \"test @s; @b\"" =
      [⟨"literal", "echo \"test @s; @b\"", []⟩] := by
  decide

/-- Claim C1 counterexample: the code substitutes values through
`shlex.quote`, which returns a safe string such as `hello` unchanged
rather than single-quoting it, so the result of
`substitute("echo \x7bm\x7d", m := "hello")` is `echo hello`, not the
`echo 'hello'` that the claim's "single-quoting with embedded single
quotes escaped" form predicts. -/
theorem claim1_quoting_counterexample :
    substitutePlaceholders "echo \x7bm\x7d" [("m", "hello")] =
      .ok "echo hello" ∧
    claimSubstitute "echo \x7bm\x7d" [("m", "hello")] = "echo 'hello'" ∧
    ("echo hello" : String) ≠ "echo 'hello'" := by
  refine ⟨rfl, rfl, by decide⟩

/-- Claim C9 counterexample: `run_pty` has a return path whose `stderr`
is not empty — when spawning the child fails, the exception text is
returned in `stderr`. -/
theorem claim9_spawn_counterexample :
    (runPtyModel defaultMaxCaptureBytes defaultTimeout
        ⟨some "boom", [], false, none⟩).stderr =
      "Error executing command: boom" ∧
    ("Error executing command: boom" : String) ≠ "" := by
  refine ⟨rfl, by decide⟩

/-- Claim C9 (amended): on every path of `run_pty` on which the child
process was actually spawned — normal exit, timeout (whose message is
merged into the single PTY output stream reported as stdout), any exit
code — the returned `stderr` is the empty string; only the spawn-failure
path returns the exception text in `stderr`. -/
theorem claim9_pty_stderr_amended :
    (∀ maxB tV chunks timedOut rc,
      (runPtyModel maxB tV ⟨none, chunks, timedOut, rc⟩).stderr = "") ∧
    (∀ maxB tV e chunks timedOut rc,
      (runPtyModel maxB tV ⟨some e, chunks, timedOut, rc⟩).stderr =
        "Error executing command: " ++ e) := by
  exact ⟨fun _ _ _ _ _ => rfl, fun _ _ _ _ _ _ => rfl⟩

/-- Claim C2: when the combined UTF-8 byte size of stdout and stderr
exceeds `MAX_TOTAL_BYTES`, `record_event` prioritizes stderr — the stored
stderr bytes are exactly the full stderr and its truncated flag is false
— and only stdout is reduced (to the remaining combined budget, with its
truncated flag set); the returned byte totals are the full logical sizes
seen before truncation, and the truncation path is a total computation
(no error is raised). -/
theorem claim2_truncation_priority (out err : List Nat)
    (h : MAX_TOTAL_BYTES < out.length + err.length) :
    (recordEventTruncate out err).stderrKept = err ∧
    (recordEventTruncate out err).stderrTruncated = false ∧
    (recordEventTruncate out err).stdoutTruncated = true ∧
    (recordEventTruncate out err).stdoutKept =
      out.take (MAX_TOTAL_BYTES - err.length) ∧
    (recordEventTruncate out err).stdoutBytesTotal = out.length ∧
    (recordEventTruncate out err).stderrBytesTotal = err.length := by
  have hrem : ((MAX_TOTAL_BYTES : Int) - (err.length : Int)) <
      (out.length : Int) := by
    have := h
    simp only [MAX_TOTAL_BYTES] at this ⊢
    omega
  have htake : (max 0 ((MAX_TOTAL_BYTES : Int) - (err.length : Int))).toNat =
      MAX_TOTAL_BYTES - err.length := by
    simp only [MAX_TOTAL_BYTES]
    omega
  simp only [recordEventTruncate, if_pos h, if_pos hrem, htake]
  exact ⟨trivial, trivial, trivial, trivial, trivial, trivial⟩

/-- Witness for C2 at the claim's own instance: stderr one byte under the
combined cap (16383 bytes, exceeding its per-stream cap) and stdout of
1000 bytes: stderr is kept whole and reported untruncated, stdout is
reported truncated, and the totals are the pre-truncation sizes. -/
theorem claim2_truncation_priority_witness :
    MAX_TOTAL_BYTES <
      (List.replicate 1000 7).length + (List.replicate 16383 7).length ∧
    (recordEventTruncate (List.replicate 1000 7)
        (List.replicate 16383 7)).stderrKept = List.replicate 16383 7 ∧
    (recordEventTruncate (List.replicate 1000 7)
        (List.replicate 16383 7)).stderrTruncated = false ∧
    (recordEventTruncate (List.replicate 1000 7)
        (List.replicate 16383 7)).stdoutTruncated = true ∧
    (recordEventTruncate (List.replicate 1000 7)
        (List.replicate 16383 7)).stdoutBytesTotal = 1000 ∧
    (recordEventTruncate (List.replicate 1000 7)
        (List.replicate 16383 7)).stderrBytesTotal = 16383 := by
  have h : MAX_TOTAL_BYTES <
      (List.replicate 1000 7).length + (List.replicate 16383 7).length := by
    simp only [MAX_TOTAL_BYTES, List.length_replicate]
    decide
  have r := claim2_truncation_priority (List.replicate 1000 7)
    (List.replicate 16383 7) h
  refine ⟨h, r.1, r.2.1, r.2.2.1, ?_, ?_⟩
  · simpa only [List.length_replicate] using r.2.2.2.2.1
  · simpa only [List.length_replicate] using r.2.2.2.2.2

/-- Claim C3 counterexample: the executor's capture cap is not the 8 KiB
per-stream cap the claim states — its default is 256000 bytes, and a
9000-byte chunk (over 8 KiB) appended to an empty capture buffer by the
streaming/PTY `_append_capped` is kept whole with no truncation. -/
theorem claim3_cap_counterexample :
    defaultMaxCaptureBytes ≠ 8192 ∧ 8192 < 9000 ∧
    (appendCapped defaultMaxCaptureBytes ⟨[], 0, false⟩
        (List.replicate 9000 97)).truncated = false ∧
    (appendCapped defaultMaxCaptureBytes ⟨[], 0, false⟩
        (List.replicate 9000 97)).buf = [List.replicate 9000 97] := by
  refine ⟨by decide, by decide, ?_, ?_⟩
  · norm_num [appendCapped, defaultMaxCaptureBytes]
  · norm_num [appendCapped, defaultMaxCaptureBytes]

/-- Claim C3 (amended): the streaming and PTY capture modes share
`_append_capped`, a per-stream byte cap equal to the executor's
`max_capture_bytes` (default 256000 bytes, not 8 KiB), measured after
UTF-8 encoding, under which a chunk that would cross the cap is sliced to
the remaining budget and the truncated flag set, while the returned count
is always the full logical size; there is no combined cap in the executor
— the 8 KiB per-stream and 16 KiB combined caps are applied only when the
result is persisted by `record_event`. -/
theorem claim3_capture_policy_amended :
    (∀ maxBytes (st : CapState) chunk, 0 < maxBytes → st.bytes < maxBytes →
      (appendCapped maxBytes st chunk).bytes = st.bytes + chunk.length ∧
      (if chunk.length ≤ maxBytes - st.bytes then
        (appendCapped maxBytes st chunk).buf = st.buf ++ [chunk] ∧
        (appendCapped maxBytes st chunk).truncated = st.truncated
      else
        (appendCapped maxBytes st chunk).buf =
          st.buf ++ [chunk.take (maxBytes - st.bytes)] ∧
        (appendCapped maxBytes st chunk).truncated = true)) ∧
    (∀ maxBytes (st : CapState) chunk, 0 < maxBytes → maxBytes ≤ st.bytes →
      (appendCapped maxBytes st chunk).buf = st.buf ∧
      (appendCapped maxBytes st chunk).bytes = st.bytes + chunk.length ∧
      (appendCapped maxBytes st chunk).truncated = true) ∧
    defaultMaxCaptureBytes = 256000 ∧
    MAX_STDOUT_BYTES = 8192 ∧ MAX_STDERR_BYTES = 8192 ∧
    MAX_TOTAL_BYTES = 16384 := by
  refine ⟨?_, ?_, rfl, rfl, rfl, rfl⟩
  · intro maxBytes st chunk hpos hlt
    have hne : ¬maxBytes = 0 := by omega
    have hnle : ¬maxBytes ≤ st.bytes := by omega
    by_cases hc : chunk.length ≤ maxBytes - st.bytes
    · have : ¬(maxBytes - st.bytes < chunk.length) := by omega
      simp [appendCapped, hne, hnle, this, hc]
    · have : maxBytes - st.bytes < chunk.length := by omega
      simp [appendCapped, hne, hnle, this, hc]
  · intro maxBytes st chunk hpos hle
    have hne : ¬maxBytes = 0 := by omega
    simp [appendCapped, hne, hle]

/-- Witness for C3 (amended) at concrete inputs: a cap of 10 with 4 bytes
already used slices a 9-byte chunk to 6 bytes and sets the flag, and a
full buffer stores nothing further. -/
theorem claim3_capture_policy_amended_witness :
    ((0 : Nat) < 10 ∧ (4 : Nat) < 10 ∧
      (appendCapped 10 ⟨[[1]], 4, false⟩
          [1, 2, 3, 4, 5, 6, 7, 8, 9]).bytes = 13) ∧
    ((0 : Nat) < 10 ∧ (10 : Nat) ≤ 12 ∧
      (appendCapped 10 ⟨[[1]], 12, false⟩ [1, 2]).buf = [[1]]) := by
  have h1 := (claim3_capture_policy_amended.1 10 ⟨[[1]], 4, false⟩
    [1, 2, 3, 4, 5, 6, 7, 8, 9] (by decide) (by decide)).1
  have h2 := (claim3_capture_policy_amended.2.1 10 ⟨[[1]], 12, false⟩
    [1, 2] (by decide) (by decide)).1
  exact ⟨⟨by decide, by decide, by simpa using h1⟩,
    ⟨by decide, by decide, h2⟩⟩

/-- If the recursive expansion callback restores the stack it was given,
the segment walk leaves the stack unchanged. -/
theorem execSegsWith_stack (env : ExpEnv)
    (recur : List String → List String → String → String → List String →
      ExpResult)
    (posargs : List String)
    (hrec : ∀ st ex n b a, (recur st ex n b a).stack = st) :
    ∀ segs stack executed outs,
      (execSegsWith env recur posargs segs stack executed outs).2.1 = stack := by
  intro segs
  induction segs with
  | nil => intro stack executed outs; rfl
  | cons seg rest ih =>
    intro stack executed outs
    by_cases h1 : seg.type = "literal"
    · simp only [execSegsWith, if_pos h1]
      exact ih stack _ _
    · by_cases h2 : seg.type = "alias"
      · simp only [execSegsWith, if_neg h1, if_pos h2]
        cases hfa : env.findAlias seg.content with
        | none => exact ih stack _ _
        | some script =>
          have := ih (recur stack executed seg.content script seg.args).stack
            (recur stack executed seg.content script seg.args).executed
            (outs ++ [(recur stack executed seg.content script seg.args).output])
          rw [this, hrec]
      · simp only [execSegsWith, if_neg h1, if_neg h2]
        exact ih stack _ _

/-- If the recursive expansion callback restores the stack,
`_execute_alias_script` returns the stack it was given on every path. -/
theorem execScriptWith_stack (env : ExpEnv)
    (recur : List String → List String → String → String → List String →
      ExpResult)
    (hrec : ∀ st ex n b a, (recur st ex n b a).stack = st)
    (stack executed : List String) (body : String) (args : List String) :
    (execScriptWith env recur stack executed body args).stack = stack := by
  cases hsub : substitutePlaceholders body (extractKwargsAndPosargs args).1 with
  | error e => simp [execScriptWith, hsub]
  | ok rendered =>
    by_cases hseg : parseAliasScript rendered = []
    · simp [execScriptWith, hsub, hseg]
    · simp only [execScriptWith, hsub, if_neg hseg]
      exact execSegsWith_stack env recur _ hrec _ _ _ _

/-- The expansion stack is restored on every exit path of
`_execute_alias_with_args` (the push is always matched by the
`finally`-pop): the returned stack equals the stack at entry. -/
theorem execAliasWithArgs_stack (env : ExpEnv) :
    ∀ fuel stack executed name body args,
      (execAliasWithArgs env fuel stack executed name body args).stack =
        stack := by
  intro fuel
  induction fuel with
  | zero => intro stack executed name body args; rfl
  | succ fuel ih =>
    intro stack executed name body args
    by_cases h1 : maxAliasDepth ≤ stack.length
    · simp [execAliasWithArgs, h1]
    · by_cases h2 : name ∈ stack
      · simp [execAliasWithArgs, h1, h2]
      · simp only [execAliasWithArgs, if_neg h1]
        rw [if_neg (by simpa using h2)]
        have hs := execScriptWith_stack env
          (fun st ex n b a => execAliasWithArgs env fuel st ex n b a)
          (fun st ex n b a => ih st ex n b a)
          (stack ++ [name]) executed body args
        simp only [hs]
        simp

/-- Claim C4 (amended): invoking the alias `self` whose body is `@self`
fails with the `CycleDetected` message listing the full chain
`self -> self`, executes nothing, and leaves the expansion stack empty;
in general, re-entering a name already on the stack fails with the
`CycleDetected` message listing the full chain — provided the stack is
still below the depth limit, which is checked first — and on every exit
path of `_execute_alias_with_args` (success, cycle, depth, substitution
error) the stack returned equals the stack at entry. -/
theorem claim4_cycle_amended :
    (∀ runLit, invokeAlias (mkEnv selfStore runLit) "self" [] =
      some ⟨"Error: Alias expansion cycle detected: self -> self", [], []⟩) ∧
    (∀ env fuel stack executed name body args,
      stack.length < maxAliasDepth → stack.contains name = true →
      execAliasWithArgs env (fuel + 1) stack executed name body args =
        ⟨cycleError stack name, stack, executed⟩) ∧
    (∀ env fuel stack executed name body args,
      (execAliasWithArgs env fuel stack executed name body args).stack =
        stack) := by
  refine ⟨fun runLit => rfl, ?_, ?_⟩
  · intro env fuel stack executed name body args h1 h2
    have hn : ¬maxAliasDepth ≤ stack.length := Nat.not_le.mpr h1
    have h2m : name ∈ stack := by simpa using h2
    simp [execAliasWithArgs, hn, h2m]
  · intro env fuel stack executed name body args
    exact execAliasWithArgs_stack env fuel stack executed name body args

/-- Witness for C4 (amended): the general cycle branch applied at a
concrete stack, name and environment. -/
theorem claim4_cycle_amended_witness :
    (["x"] : List String).length < maxAliasDepth ∧
    (["x"] : List String).contains "x" = true ∧
    execAliasWithArgs (mkEnv selfStore tagRun) 1 ["x"] [] "x" "echo hi" [] =
      ⟨cycleError ["x"] "x", ["x"], []⟩ := by
  refine ⟨by decide, by decide, ?_⟩
  exact claim4_cycle_amended.2.1 (mkEnv selfStore tagRun) 0 ["x"] []
    "x" "echo hi" [] (by decide) (by decide)

/-- Claim C4 counterexample: the depth check runs before the cycle check,
so a re-entry of a name already on the stack fails with `MaxDepthExceeded`
instead of `CycleDetected` when the stack has already reached the limit —
reachable with ten aliases forming a cycle (`a1 -> ... -> a10 -> a1`):
invoking `a1` yields the depth error, not a cycle error, even though `a1`
is re-entered while on the stack. -/
theorem claim4_depth_vs_cycle_counterexample :
    stackTen.contains "a1" = true ∧
    execAliasWithArgs (mkEnv cyc10Store tagRun) 1 stackTen [] "a1" "@a2" [] =
      ⟨depthError stackTen, stackTen, []⟩ ∧
    depthError stackTen ≠ cycleError stackTen "a1" ∧
    (invokeAlias (mkEnv cyc10Store tagRun) "a1" []).map ExpResult.output =
      some (depthError stackTen) := by
  refine ⟨by decide, by decide, by decide, by decide⟩

/-- Claim C5: with the default depth limit of 10, invoking a chain of 11
aliases, each body calling the next, fails with the `MaxDepthExceeded`
error reporting the chain so far (`a1` .. `a10`) and executes nothing,
for every literal executor; a chain of exactly 10 expands and executes
successfully — its terminal literal `echo done` is handed to the
executor and its output returned — and the stack is empty afterwards. -/
theorem claim5_depth_limit :
    (∀ runLit, invokeAlias (mkEnv chain11Store runLit) "a1" [] =
      some ⟨depthError stackTen, [], []⟩) ∧
    (∀ runLit,
      (invokeAlias (mkEnv chain10Store runLit) "a1" []).map
        ExpResult.executed = some ["echo done"] ∧
      (invokeAlias (mkEnv chain10Store runLit) "a1" []).map
        ExpResult.stack = some []) ∧
    invokeAlias (mkEnv chain10Store tagRun) "a1" [] =
      some ⟨"OUT:echo done", [], ["echo done"]⟩ := by
  refine ⟨fun runLit => rfl, fun runLit => ⟨rfl, rfl⟩, by decide⟩

/-- Unfolding of `dictLookup` on a cons cell. -/
theorem dictLookup_cons (q : String × String) (rest : List (String × String))
    (k : String) :
    dictLookup (q :: rest) k =
      if q.1 = k then some q.2 else dictLookup rest k := by
  by_cases h : q.1 = k
  · simp [dictLookup, List.find?_cons, h]
  · simp [dictLookup, List.find?_cons, h]

/-- Looking up a key other than the replaced one is unaffected by a
replace-in-place dict update. -/
theorem dictLookup_mapReplace (m : List (String × String)) (k v k2 : String)
    (h : k2 ≠ k) :
    dictLookup (m.map (fun kv => if kv.1 = k then (k, v) else kv)) k2 =
      dictLookup m k2 := by
  induction m with
  | nil => rfl
  | cons q rest ih =>
    by_cases hq : q.1 = k
    · have hq2 : ¬q.1 = k2 := by rw [hq]; exact fun hk => h hk.symm
      simp only [List.map_cons, if_pos hq, dictLookup_cons]
      rw [if_neg (fun hk => h hk.symm), if_neg hq2]
      exact ih
    · simp only [List.map_cons, if_neg hq, dictLookup_cons]
      by_cases hq2 : q.1 = k2
      · rw [if_pos hq2, if_pos hq2]
      · rw [if_neg hq2, if_neg hq2]
        exact ih

/-- If the key is present, a replace-in-place dict update makes its
lookup return the new value. -/
theorem dictLookup_mapReplace_self (m : List (String × String)) (k v : String)
    (h : m.any (fun kv => kv.1 = k) = true) :
    dictLookup (m.map (fun kv => if kv.1 = k then (k, v) else kv)) k =
      some v := by
  induction m with
  | nil => simp at h
  | cons q rest ih =>
    by_cases hq : q.1 = k
    · simp only [List.map_cons, if_pos hq, dictLookup_cons]
      simp
    · have hrest : rest.any (fun kv => kv.1 = k) = true := by
        simp only [List.any_cons, Bool.or_eq_true, decide_eq_true_eq] at h
        rcases h with h | h
        · exact absurd h hq
        · exact h
      simp only [List.map_cons, if_neg hq, dictLookup_cons]
      exact ih hrest


/-- Python `dict` semantics of the binder's updates: after
`dictInsert m k v`, looking up `k` yields `v` and every other key is
unchanged. -/
theorem dictLookup_dictInsert (m : List (String × String)) (k v k2 : String) :
    dictLookup (dictInsert m k v) k2 =
      if k2 = k then some v else dictLookup m k2 := by
  by_cases hany : m.any (fun kv => kv.1 = k) = true
  · simp only [dictInsert, if_pos hany]
    by_cases h : k2 = k
    · subst h
      simp [dictLookup_mapReplace_self m k2 v hany]
    · simp [h, dictLookup_mapReplace m k v k2 h]
  · simp only [dictInsert, if_neg hany]
    induction m with
    | nil =>
      simp only [List.nil_append, dictLookup_cons]
      by_cases h : k2 = k
      · subst h; rw [if_pos rfl]
      · rw [if_neg (fun hk => h hk.symm), if_neg h]
    | cons q rest ih =>
      have hq : ¬q.1 = k := by
        intro he
        exact hany (by simp [List.any_cons, he])
      have hrest : ¬rest.any (fun kv => kv.1 = k) = true := by
        intro he
        exact hany (by simp [List.any_cons, he])
      simp only [List.cons_append, dictLookup_cons]
      by_cases hq2 : q.1 = k2
      · by_cases h : k2 = k
        · exact absurd (hq2.trans h) hq
        · rw [if_pos hq2, if_neg h, if_pos hq2]
      · rw [if_neg hq2]
        rw [ih hrest]
        by_cases h : k2 = k
        · rw [if_pos h, if_pos h]
        · rw [if_neg h, if_neg h, if_neg hq2]

/-- The positional accumulator of the binder: non-matching tokens are
appended in order, matching tokens never reach it. -/
theorem extractAux_pos : ∀ (args : List String) kwargs pos,
    (extractAux args kwargs pos).2 =
      pos ++ args.filter (fun t => (kwargMatch t).isNone) := by
  intro args
  induction args with
  | nil => intro kwargs pos; simp [extractAux]
  | cons t rest ih =>
    intro kwargs pos
    cases hm : kwargMatch t with
    | some kv => simp [extractAux, hm, ih]
    | none => simp [extractAux, hm, ih]

/-- The kwargs accumulator of the binder: the final lookup of a key is
the value of the last named-form token binding it, falling back to the
accumulator passed in. -/
theorem extractAux_lookup : ∀ (args : List String) kwargs pos k,
    dictLookup (extractAux args kwargs pos).1 k =
      match lastBinding k args with
      | some v => some v
      | none => dictLookup kwargs k := by
  intro args
  induction args with
  | nil => intro kwargs pos k; rfl
  | cons t rest ih =>
    intro kwargs pos k
    cases hm : kwargMatch t with
    | none =>
      simp only [extractAux, hm]
      rw [ih]
      simp only [lastBinding, hm]
      cases lastBinding k rest <;> rfl
    | some kv =>
      simp only [extractAux, hm]
      rw [ih]
      simp only [lastBinding, hm]
      cases lastBinding k rest with
      | some v => rfl
      | none =>
        rw [dictLookup_dictInsert]
        by_cases h : kv.1 = k
        · rw [if_pos h.symm, if_pos h]
        · rw [if_neg (fun hk => h hk.symm), if_neg h]

/-- Claim C10: when several invocation tokens are named-form tokens with
the same key, the binder's returned map binds the key to the value of the
last such token in input order (looking up any key in the result yields
the last binding for that key); named tokens never become positional and
the positional list is exactly the non-matching tokens in order — in
particular `x=1 x=2` binds `x` to `2` with no positional arguments. -/
theorem claim10_last_binding_wins :
    (∀ args k,
      dictLookup (extractKwargsAndPosargs args).1 k = lastBinding k args) ∧
    (∀ args, (extractKwargsAndPosargs args).2 =
      args.filter (fun t => (kwargMatch t).isNone)) ∧
    extractKwargsAndPosargs ["x=1", "x=2"] = ([("x", "2")], []) := by
  refine ⟨?_, ?_, by decide⟩
  · intro args k
    rw [extractKwargsAndPosargs, extractAux_lookup]
    cases lastBinding k args <;> rfl
  · intro args
    rw [extractKwargsAndPosargs, extractAux_pos]
    rfl

/-- Membership in the first-occurrence deduplication, relative to the
seen-set accumulator. -/
theorem mem_dedupFirstAux : ∀ (l seen : List String) (a : String),
    a ∈ dedupFirstAux seen l ↔ (a ∈ l ∧ a ∉ seen) := by
  intro l
  induction l with
  | nil => intro seen a; simp [dedupFirstAux]
  | cons x xs ih =>
    intro seen a
    by_cases h : seen.contains x = true
    · have hx : x ∈ seen := List.elem_iff.mp h
      rw [dedupFirstAux, if_pos h, ih]
      simp only [List.mem_cons]
      constructor
      · rintro ⟨ha, hna⟩; exact ⟨Or.inr ha, hna⟩
      · rintro ⟨ha | ha, hna⟩
        · exact absurd (ha ▸ hx) hna
        · exact ⟨ha, hna⟩
    · have hx : x ∉ seen := fun hm => h (List.elem_iff.mpr hm)
      rw [dedupFirstAux, if_neg h]
      simp only [List.mem_cons, ih]
      constructor
      · rintro (ha | ⟨ha, hna⟩)
        · exact ⟨Or.inl ha, ha ▸ hx⟩
        · exact ⟨Or.inr ha, fun hs => hna (Or.inr hs)⟩
      · rintro ⟨ha | ha, hna⟩
        · exact Or.inl ha
        · by_cases hax : a = x
          · exact Or.inl hax
          · exact Or.inr ⟨ha, fun hs => hs.elim hax hna⟩

/-- First-occurrence deduplication preserves membership. -/
theorem mem_dedupFirst (l : List String) (a : String) :
    a ∈ dedupFirst l ↔ a ∈ l := by
  rw [dedupFirst, mem_dedupFirstAux]
  simp

/-- Claim C1 (amended): whenever the named map provides a value for every
placeholder in the script, `substitute` succeeds (no error is raised);
each placeholder occurrence is replaced by the `shlex.quote` of its value
— the value itself when it is non-empty and wholly of safe characters,
the single-quoted form otherwise — so in particular, when all the
placeholders of the script name one identifier `k` bound to `v`, the
result is exactly the script with every occurrence of the `k` placeholder
replaced by `shlex.quote(v)`. -/
theorem claim1_substitution_amended :
    (∀ script kwargs,
      (placeholdersOf script).filter
        (fun p => (dictLookup kwargs p).isNone) = [] →
      ∃ r, substitutePlaceholders script kwargs = .ok r) ∧
    (∀ script kwargs k v,
      dedupFirst (placeholdersOf script) = [k] →
      dictLookup kwargs k = some v →
      substitutePlaceholders script kwargs =
        .ok (pyReplace script ("\x7b" ++ k ++ "\x7d") (shlexQuote v))) := by
  constructor
  · intro script kwargs hmiss
    by_cases hp : placeholdersOf script = []
    · exact ⟨script, by simp [substitutePlaceholders, hp]⟩
    · refine ⟨(dedupFirst (placeholdersOf script)).foldl
        (fun result p => pyReplace result ("\x7b" ++ p ++ "\x7d")
          (shlexQuote ((dictLookup kwargs p).getD ""))) script, ?_⟩
      simp [substitutePlaceholders, hp, hmiss]
  · intro script kwargs k v hded hlk
    have hp : placeholdersOf script ≠ [] := by
      intro h
      rw [dedupFirst, h] at hded
      exact absurd hded (by simp [dedupFirstAux])
    have hmiss : (placeholdersOf script).filter
        (fun p => (dictLookup kwargs p).isNone) = [] := by
      apply List.filter_eq_nil_iff.mpr
      intro p hpmem
      have hpk : p ∈ dedupFirst (placeholdersOf script) :=
        (mem_dedupFirst _ _).mpr hpmem
      rw [hded] at hpk
      simp only [List.mem_singleton] at hpk
      subst hpk
      simp [hlk]
    simp [substitutePlaceholders, hp, hmiss, hded, hlk]

/-- Witness for C1 (amended): one placeholder, one binding, a value with
a shell metacharacter (a space), checked end to end. -/
theorem claim1_substitution_amended_witness :
    dedupFirst (placeholdersOf "echo \x7bm\x7d") = ["m"] ∧
    dictLookup [("m", "a b")] "m" = some "a b" ∧
    substitutePlaceholders "echo \x7bm\x7d" [("m", "a b")] =
      .ok (pyReplace "echo \x7bm\x7d" ("\x7b" ++ "m" ++ "\x7d")
        (shlexQuote "a b")) := by
  refine ⟨by decide, by decide, ?_⟩
  exact claim1_substitution_amended.2 "echo \x7bm\x7d" [("m", "a b")]
    "m" "a b" (by decide) (by decide)

/-- Stripping only removes characters. -/
theorem mem_pyStrip (l : List Char) (c : Char) (h : c ∈ pyStrip l) :
    c ∈ l := by
  rw [pyStrip, List.mem_reverse] at h
  have h2 : c ∈ (l.dropWhile pyStripWS).reverse :=
    (List.dropWhile_sublist _).subset h
  rw [List.mem_reverse] at h2
  exact (List.dropWhile_sublist _).subset h2

/-- A segment produced by a flush is an old segment or carries the
stripped buffer as content. -/
theorem mem_flushLiteral (segs : List ScriptSegment) (cur : List Char)
    (seg : ScriptSegment) (h : seg ∈ flushLiteral segs cur) :
    seg ∈ segs ∨ seg.content.toList = pyStrip cur := by
  rw [flushLiteral] at h
  by_cases h1 : cur ≠ []
  · rw [if_pos h1] at h
    by_cases h2 : pyStrip cur ≠ []
    · rw [if_pos h2] at h
      rcases List.mem_append.mp h with h3 | h3
      · exact Or.inl h3
      · rcases List.mem_singleton.mp h3 with rfl
        exact Or.inr rfl
    · rw [if_neg h2] at h
      exact Or.inl h
  · rw [if_neg h1] at h
    exact Or.inl h

/-- The argument-collection loop never takes a separator into the
consumed prefix (it stops in front of them). -/
theorem collectArgs_fst_no_sep : ∀ (l : List Char) (b : Bool) (c : Char),
    c ∈ (collectArgs l b).1 → ¬(c = ';' ∨ c = '\n') := by
  intro l
  induction l with
  | nil => intro b c h; simp [collectArgs] at h
  | cons d rest ih =>
    intro b c h
    rw [collectArgs] at h
    by_cases h1 : (d = ';' || d = '\n') = true
    · rw [if_pos h1] at h; simp at h
    · rw [if_neg h1] at h
      simp only [Bool.or_eq_true, decide_eq_true_eq, not_or] at h1
      by_cases h2 : (d = ' ' || d = '\t') = true
      · rw [if_pos h2] at h
        rcases List.mem_cons.mp h with rfl | h3
        · simp only [Bool.or_eq_true, decide_eq_true_eq] at h2
          rcases h2 with rfl | rfl <;> simp
        · exact ih true c h3
      · rw [if_neg h2] at h
        by_cases h3 : (d = '@' && b) = true
        · rw [if_pos h3] at h; simp at h
        · rw [if_neg h3] at h
          rcases List.mem_cons.mp h with rfl | h4
          · exact fun hc => (hc.elim (fun he => h1.1 he) (fun he => h1.2 he))
          · exact ih false c h4

/-- The remaining input of the argument-collection loop is drawn from the
input. -/
theorem collectArgs_snd_mem : ∀ (l : List Char) (b : Bool) (c : Char),
    c ∈ (collectArgs l b).2 → c ∈ l := by
  intro l
  induction l with
  | nil => intro b c h; simp [collectArgs] at h
  | cons d rest ih =>
    intro b c h
    rw [collectArgs] at h
    by_cases h1 : (d = ';' || d = '\n') = true
    · rw [if_pos h1] at h; exact h
    · rw [if_neg h1] at h
      by_cases h2 : (d = ' ' || d = '\t') = true
      · rw [if_pos h2] at h
        exact List.mem_cons_of_mem d (ih true c h)
      · rw [if_neg h2] at h
        by_cases h3 : (d = '@' && b) = true
        · rw [if_pos h3] at h; exact h
        · rw [if_neg h3] at h
          exact List.mem_cons_of_mem d (ih false c h)

/-- Identifier characters are never separators. -/
theorem isIdentChar_no_sep (c : Char) (h : isIdentChar c = true) :
    ¬(c = ';' ∨ c = '\n') := by
  rintro (rfl | rfl) <;> simp [isIdentChar] at h

/-- Flushing a separator-free buffer onto separator-free segments keeps
every segment content separator-free. -/
theorem flushLiteral_no_sep (segs : List ScriptSegment) (cur : List Char)
    (hcur : ∀ x ∈ cur, ¬(x = ';' ∨ x = '\n'))
    (hsegs : ∀ seg ∈ segs, ∀ x ∈ seg.content.toList, ¬(x = ';' ∨ x = '\n')) :
    ∀ seg ∈ flushLiteral segs cur, ∀ x ∈ seg.content.toList,
      ¬(x = ';' ∨ x = '\n') := by
  intro seg hseg x hx
  rcases mem_flushLiteral segs cur seg hseg with h | h
  · exact hsegs seg h x hx
  · rw [h] at hx
    exact hcur x (mem_pyStrip cur x hx)

/-- One-step unfolding of the scan loop in `NORMAL` state on a cons cell,
with every local binding of the `@`-branch inlined (definitional). -/
theorem parseLoop_cons_normal (fuel : Nat) (c : Char) (rs cur : List Char)
    (boundary : Bool) (segs : List ScriptSegment) :
    parseLoop (fuel + 1) (c :: rs) .normal cur boundary segs =
      (if c = '\\' then parseLoop fuel rs .escape (cur ++ [c]) boundary segs
      else if c = '\'' then parseLoop fuel rs .squote (cur ++ [c]) false segs
      else if c = '"' then parseLoop fuel rs .dquote (cur ++ [c]) false segs
      else if c = ';' || c = '\n' then
        parseLoop fuel rs .normal [] true (flushLiteral segs cur)
      else if c = ' ' || c = '\t' then
        parseLoop fuel rs .normal
          (if !boundary || cur ≠ [] then cur ++ [c] else cur) boundary segs
      else if c = '@' && boundary then
        if rs.takeWhile isIdentChar = [] then
          parseLoop fuel rs .normal ['@'] false (flushLiteral segs cur)
        else
          if pyStrip (collectArgs ((rs.drop (rs.takeWhile isIdentChar).length).drop
              ((rs.drop (rs.takeWhile isIdentChar).length).takeWhile
                (fun w => w = ' ' || w = '\t')).length) true).1 = [] then
            parseLoop fuel
              (collectArgs ((rs.drop (rs.takeWhile isIdentChar).length).drop
                ((rs.drop (rs.takeWhile isIdentChar).length).takeWhile
                  (fun w => w = ' ' || w = '\t')).length) true).2
              .normal []
              (match (collectArgs ((rs.drop (rs.takeWhile isIdentChar).length).drop
                  ((rs.drop (rs.takeWhile isIdentChar).length).takeWhile
                    (fun w => w = ' ' || w = '\t')).length) true).2 with
                | [] => false
                | c2 :: _ => c2 = ';' || c2 = '\n' || c2 = '@')
              (flushLiteral segs cur ++
                [⟨"alias", String.mk (rs.takeWhile isIdentChar), []⟩])
          else
            match shlexSplit (String.mk (pyStrip (collectArgs
                ((rs.drop (rs.takeWhile isIdentChar).length).drop
                  ((rs.drop (rs.takeWhile isIdentChar).length).takeWhile
                    (fun w => w = ' ' || w = '\t')).length) true).1)) with
            | .ok parsed =>
              parseLoop fuel
                (collectArgs ((rs.drop (rs.takeWhile isIdentChar).length).drop
                  ((rs.drop (rs.takeWhile isIdentChar).length).takeWhile
                    (fun w => w = ' ' || w = '\t')).length) true).2
                .normal []
                (match (collectArgs ((rs.drop (rs.takeWhile isIdentChar).length).drop
                    ((rs.drop (rs.takeWhile isIdentChar).length).takeWhile
                      (fun w => w = ' ' || w = '\t')).length) true).2 with
                  | [] => false
                  | c2 :: _ => c2 = ';' || c2 = '\n' || c2 = '@')
                (flushLiteral segs cur ++
                  [⟨"alias", String.mk (rs.takeWhile isIdentChar), parsed⟩])
            | .error _ =>
              parseLoop fuel
                (collectArgs ((rs.drop (rs.takeWhile isIdentChar).length).drop
                  ((rs.drop (rs.takeWhile isIdentChar).length).takeWhile
                    (fun w => w = ' ' || w = '\t')).length) true).2
                .normal
                ('@' :: (rs.takeWhile isIdentChar ++
                  (rs.drop (rs.takeWhile isIdentChar).length).takeWhile
                    (fun w => w = ' ' || w = '\t') ++
                  (collectArgs ((rs.drop (rs.takeWhile isIdentChar).length).drop
                    ((rs.drop (rs.takeWhile isIdentChar).length).takeWhile
                      (fun w => w = ' ' || w = '\t')).length) true).1))
                (match ('@' :: (rs.takeWhile isIdentChar ++
                    (rs.drop (rs.takeWhile isIdentChar).length).takeWhile
                      (fun w => w = ' ' || w = '\t') ++
                    (collectArgs ((rs.drop (rs.takeWhile isIdentChar).length).drop
                      ((rs.drop (rs.takeWhile isIdentChar).length).takeWhile
                        (fun w => w = ' ' || w = '\t')).length) true).1)).getLast? with
                  | some l => l = ';' || l = '\n'
                  | none => false)
                (flushLiteral segs cur)
      else parseLoop fuel rs .normal (cur ++ [c]) false segs) := rfl

/-- Core invariant for claim C8: scanning input free of quote and escape
characters (on which the lexer never leaves the `NORMAL` state), with a
separator-free buffer and separator-free accumulated segment contents,
produces only separator-free segment contents. -/
theorem parseLoop_normal_no_sep :
    ∀ (fuel : Nat) (rest cur : List Char) (boundary : Bool)
      (segs : List ScriptSegment),
      (∀ x ∈ rest, ¬(x = '\'' ∨ x = '"' ∨ x = '\\')) →
      (∀ x ∈ cur, ¬(x = ';' ∨ x = '\n')) →
      (∀ seg ∈ segs, ∀ x ∈ seg.content.toList, ¬(x = ';' ∨ x = '\n')) →
      ∀ seg ∈ parseLoop fuel rest .normal cur boundary segs,
        ∀ x ∈ seg.content.toList, ¬(x = ';' ∨ x = '\n') := by
  intro fuel
  induction fuel with
  | zero =>
    intro rest cur boundary segs hrest hcur hsegs
    cases rest with
    | nil => exact flushLiteral_no_sep segs cur hcur hsegs
    | cons c rs => exact flushLiteral_no_sep segs cur hcur hsegs
  | succ fuel ih =>
    intro rest cur boundary segs hrest hcur hsegs
    cases rest with
    | nil => exact flushLiteral_no_sep segs cur hcur hsegs
    | cons c rs =>
      have hc := hrest c (List.mem_cons_self c rs)
      push_neg at hc
      obtain ⟨hc1, hc2, hc3⟩ := hc
      have hrs : ∀ x ∈ rs, ¬(x = '\'' ∨ x = '"' ∨ x = '\\') :=
        fun x hx => hrest x (List.mem_cons_of_mem c hx)
      rw [parseLoop_cons_normal]
      rw [if_neg hc3, if_neg hc1, if_neg hc2]
      by_cases hsep : c = ';' ∨ c = '\n'
      · have hb : (c = ';' || c = '\n') = true := by
          rcases hsep with rfl | rfl <;> simp
        rw [if_pos hb]
        exact ih rs [] true (flushLiteral segs cur) hrs (by simp)
          (flushLiteral_no_sep segs cur hcur hsegs)
      · have hb : ¬((c = ';' || c = '\n') = true) := by
          simp only [Bool.or_eq_true, decide_eq_true_eq]
          exact hsep
        rw [if_neg hb]
        by_cases hws : c = ' ' ∨ c = '\t'
        · have hbw : (c = ' ' || c = '\t') = true := by
            rcases hws with rfl | rfl <;> simp
          rw [if_pos hbw]
          refine ih rs _ boundary segs hrs ?_ hsegs
          intro x hx
          split at hx
          · rcases List.mem_append.mp hx with h | h
            · exact hcur x h
            · rcases List.mem_singleton.mp h with rfl
              rcases hws with rfl | rfl <;> simp
          · exact hcur x hx
        · have hbw : ¬((c = ' ' || c = '\t') = true) := by
            simp only [Bool.or_eq_true, decide_eq_true_eq]
            exact hws
          rw [if_neg hbw]
          by_cases hat : (c = '@' && boundary) = true
          · rw [if_pos hat]
            by_cases hname : rs.takeWhile isIdentChar = []
            · rw [if_pos hname]
              refine ih rs ['@'] false (flushLiteral segs cur) hrs ?_
                (flushLiteral_no_sep segs cur hcur hsegs)
              intro x hx
              rcases List.mem_singleton.mp hx with rfl
              simp
            · rw [if_neg hname]
              have hnamec : ∀ x ∈ rs.takeWhile isIdentChar,
                  ¬(x = ';' ∨ x = '\n') :=
                fun x hx => isIdentChar_no_sep x (List.mem_takeWhile_imp hx)
              have hmemrs : ∀ x ∈ ((rs.drop (rs.takeWhile isIdentChar).length).drop
                  ((rs.drop (rs.takeWhile isIdentChar).length).takeWhile
                    (fun w => w = ' ' || w = '\t')).length), x ∈ rs :=
                fun x hx => List.mem_of_mem_drop (List.mem_of_mem_drop hx)
              have hrs3 : ∀ x ∈ (collectArgs
                  ((rs.drop (rs.takeWhile isIdentChar).length).drop
                    ((rs.drop (rs.takeWhile isIdentChar).length).takeWhile
                      (fun w => w = ' ' || w = '\t')).length) true).2,
                  ¬(x = '\'' ∨ x = '"' ∨ x = '\\') :=
                fun x hx => hrs x (hmemrs x (collectArgs_snd_mem _ _ x hx))
              have hsegs1 := flushLiteral_no_sep segs cur hcur hsegs
              have hsegs2 : ∀ args' : List String,
                  ∀ seg ∈ flushLiteral segs cur ++
                    [⟨"alias", String.mk (rs.takeWhile isIdentChar), args'⟩],
                  ∀ x ∈ seg.content.toList, ¬(x = ';' ∨ x = '\n') := by
                intro args' seg hseg x hx
                rcases List.mem_append.mp hseg with h | h
                · exact hsegs1 seg h x hx
                · rcases List.mem_singleton.mp h with rfl
                  exact hnamec x hx
              by_cases hargs : pyStrip (collectArgs
                  ((rs.drop (rs.takeWhile isIdentChar).length).drop
                    ((rs.drop (rs.takeWhile isIdentChar).length).takeWhile
                      (fun w => w = ' ' || w = '\t')).length) true).1 = []
              · rw [if_pos hargs]
                exact ih _ [] _ _ hrs3 (by simp) (hsegs2 [])
              · rw [if_neg hargs]
                cases hsp : shlexSplit (String.mk (pyStrip (collectArgs
                    ((rs.drop (rs.takeWhile isIdentChar).length).drop
                      ((rs.drop (rs.takeWhile isIdentChar).length).takeWhile
                        (fun w => w = ' ' || w = '\t')).length) true).1)) with
                | ok parsed =>
                  simp only [hsp]
                  exact ih _ [] _ _ hrs3 (by simp) (hsegs2 parsed)
                | error e =>
                  simp only [hsp]
                  refine ih _ _ _ (flushLiteral segs cur) hrs3 ?_ hsegs1
                  intro x hx
                  rcases List.mem_cons.mp hx with rfl | hx2
                  · simp
                  · rcases List.mem_append.mp hx2 with hx3 | hx3
                    · rcases List.mem_append.mp hx3 with hx4 | hx4
                      · exact hnamec x hx4
                      · have hw := List.mem_takeWhile_imp hx4
                        simp only [Bool.or_eq_true, decide_eq_true_eq] at hw
                        rcases hw with rfl | rfl <;> simp
                    · exact collectArgs_fst_no_sep _ _ x hx3
          · rw [if_neg hat]
            refine ih rs (cur ++ [c]) false segs hrs ?_ hsegs
            intro x hx
            rcases List.mem_append.mp hx with h | h
            · exact hcur x h
            · rcases List.mem_singleton.mp h with rfl
              exact hsep

/-- Claim C8 counterexample: a semicolon inside a single-quoted region is
ordinary content, so `segment("echo 'a;b'")` returns a literal segment
whose content does contain a semicolon. -/
theorem claim8_quoted_sep_counterexample :
    parseAliasScript "echo 'a;b'" = [⟨"literal", "echo 'a;b'", []⟩] ∧
    ';' ∈ ("echo 'a;b'" : String).toList := by
  refine ⟨by decide, by decide⟩

/-- Claim C8 (amended): only delimiter semicolons and newlines — those
read in the `NORMAL` lexer state, where they act as command boundaries —
are consumed and kept out of segment contents; a semicolon or newline
inside quotes or after a backslash is ordinary content.  In particular,
for every script containing no quote and no backslash characters (so the
scan never leaves `NORMAL`), no returned segment's content contains a
semicolon or newline. -/
theorem claim8_boundaries_amended (script : String)
    (hclean : ∀ c ∈ script.toList, ¬(c = '\'' ∨ c = '"' ∨ c = '\\')) :
    ∀ seg ∈ parseAliasScript script, ∀ x ∈ seg.content.toList,
      ¬(x = ';' ∨ x = '\n') := by
  rw [parseAliasScript]
  by_cases h : script = ""
  · rw [if_pos h]
    intro seg hseg
    simp at hseg
  · rw [if_neg h]
    exact parseLoop_normal_no_sep _ _ [] true [] hclean (by simp) (by simp)

/-- Witness for C8 (amended) on the quote-free script `a;b` (which
segments into two literals, neither containing the semicolon). -/
theorem claim8_boundaries_amended_witness :
    (∀ c ∈ ("a;b" : String).toList, ¬(c = '\'' ∨ c = '"' ∨ c = '\\')) ∧
    (∀ seg ∈ parseAliasScript "a;b", ∀ x ∈ seg.content.toList,
      ¬(x = ';' ∨ x = '\n')) ∧
    parseAliasScript "a;b" = [⟨"literal", "a", []⟩, ⟨"literal", "b", []⟩] := by
  refine ⟨by decide, ?_, by decide⟩
  exact claim8_boundaries_amended "a;b" (by decide)
